import Mathlib

/-!
Verification of the passay-rs core: the sequence-violation scanner
(`src/rule/illegal_sequence_rule.rs`, `src/rule/character_sequence.rs`,
`src/rule/sequence_data.rs`), ordered word lists with binary search
(`src/dictionary/word_lists/mod.rs`, `sort.rs`, `src/word_lists/array_word_list.rs`)
and the ternary-search-tree dictionary (`src/dictionary/ternary_tree/mod.rs`).

Rust `String` values are represented by Lean `String`; `str::chars()` is the
underlying character list `String.data`. Rust `usize`/`isize` arithmetic that
stays far from the word size is modelled with `Nat`/`Int`; the one place where
`usize` overflow matters (sorting an empty array, where the source computes
`n - 1` with `n = 0`) is modelled explicitly as a panic. Fallible code (panics:
`unwrap` on `None`, out-of-bounds indexing) is modelled with `Except String`.
-/

namespace Passay

/-- Mirrors `CharacterSequence` (src/rule/character_sequence.rs): a non-empty
vector of equal-length forms. The two invariant fields record exactly what the
Rust constructor `CharacterSequence::new` validates; the Rust `forms` field is
private, so every `CharacterSequence` value satisfies them. -/
structure CharacterSequence where
  forms : List String
  forms_ne : forms ≠ []
  forms_len : ∀ f ∈ forms, f.length = (forms.headD "").length

/-- Mirrors `CharacterSequence::new` (src/rule/character_sequence.rs lines 19-27):
error when `strings` is empty, error when the character counts are not all equal
to the first form's count, otherwise `Ok` holding exactly the given forms. -/
def CharacterSequence.new (strings : List String) : Except String CharacterSequence :=
  if h1 : strings = [] then .error "At least one sequence must be defined"
  else if h2 : ∀ s ∈ strings, s.length = (strings.headD "").length then
    .ok ⟨strings, h1, h2⟩
  else .error "Strings have unequal length"

/-- Mirrors `CharacterSequence::length`: the character count of `forms[0]`. -/
def CharacterSequence.length (cs : CharacterSequence) : Nat :=
  (cs.forms.headD "").length

/-- Helper for `CharacterSequence.matches`: Rust
`forms.iter().any(|s| s.chars().nth(index).unwrap() == c)` short-circuits on the
first match and panics (`none` here) when a probed form has no character at
`index`. -/
def matchesGo : List String → Nat → Char → Option Bool
  | [], _, _ => some false
  | s :: rest, i, c =>
    match s.data[i]? with
    | none => none
    | some ch => if ch = c then some true else matchesGo rest i c

/-- Mirrors `CharacterSequence::matches` (src/rule/character_sequence.rs
lines 45-47); `none` models the `unwrap` panic on an out-of-range index. -/
def CharacterSequence.matches (cs : CharacterSequence) (i : Nat) (c : Char) : Option Bool :=
  matchesGo cs.forms i c

theorem matchesGo_total (i : Nat) (c : Char) :
    ∀ (forms : List String), (∀ f ∈ forms, i < f.length) → ∃ b, matchesGo forms i c = some b := by
  intro forms
  induction forms with
  | nil => intro _; exact ⟨false, rfl⟩
  | cons s rest ih =>
    intro h
    have hs : i < s.data.length := h s (List.mem_cons_self s rest)
    have hsome : s.data[i]? = some s.data[i] := List.getElem?_eq_getElem hs
    by_cases hc : s.data[i] = c
    · exact ⟨true, by simp [matchesGo, hsome, hc]⟩
    · obtain ⟨b, hb⟩ := ih (fun f hf => h f (List.mem_cons_of_mem _ hf))
      exact ⟨b, by simp [matchesGo, hsome, hc, hb]⟩

theorem matches_lt_total (cs : CharacterSequence) (i : Nat) (c : Char)
    (h : i < cs.length) : ∃ b, cs.matches i c = some b := by
  refine matchesGo_total i c cs.forms (fun f hf => ?_)
  have hf' := cs.forms_len f hf
  have : f.length = cs.length := hf'
  omega

theorem new_ok_iff (strings : List String) (cs : CharacterSequence) :
    CharacterSequence.new strings = .ok cs ↔
      strings ≠ [] ∧ (∀ s ∈ strings, s.length = (strings.headD "").length) ∧ cs.forms = strings := by
  unfold CharacterSequence.new
  by_cases h1 : strings = []
  · rw [dif_pos h1]; simp [h1]
  · rw [dif_neg h1]
    by_cases h2 : ∀ s ∈ strings, s.length = (strings.headD "").length
    · rw [dif_pos h2]
      constructor
      · intro h; cases h; exact ⟨h1, h2, rfl⟩
      · intro ⟨_, _, hf⟩
        cases cs
        simp only [Except.ok.injEq]
        cases hf
        rfl
    · rw [dif_neg h2]
      constructor
      · intro h; cases h
      · intro ⟨_, hall, _⟩; exact absurd hall h2

theorem new_error_iff (strings : List String) :
    (∃ e, CharacterSequence.new strings = .error e) ↔
      strings = [] ∨ ∃ s ∈ strings, s.length ≠ (strings.headD "").length := by
  unfold CharacterSequence.new
  by_cases h1 : strings = []
  · rw [dif_pos h1]; simp [h1]
  · rw [dif_neg h1]
    by_cases h2 : ∀ s ∈ strings, s.length = (strings.headD "").length
    · rw [dif_pos h2]
      simp only [h1, false_or]
      constructor
      · intro ⟨e, he⟩; cases he
      · intro ⟨s, hs, hne⟩; exact absurd (h2 s hs) hne
    · rw [dif_neg h2]
      simp only [h1, false_or]
      push_neg at h2
      obtain ⟨s, hs, hne⟩ := h2
      exact ⟨fun _ => ⟨s, hs, hne⟩, fun _ => ⟨"Strings have unequal length", rfl⟩⟩

/-- C5: `CharacterSequence::new(forms)` errors exactly when `forms` is empty or
some form's character length differs from the first form's character length;
on success the constructed value holds exactly the given forms. -/
theorem characterSequence_new_spec (strings : List String) :
    ((∃ e, CharacterSequence.new strings = .error e)
      ↔ strings = [] ∨ ∃ s ∈ strings, s.length ≠ (strings.headD "").length)
    ∧ (∀ cs, CharacterSequence.new strings = .ok cs → cs.forms = strings) :=
  ⟨new_error_iff strings, fun cs hcs => ((new_ok_iff strings cs).mp hcs).2.2⟩

theorem characterSequence_new_spec_witness :
    (∃ e, CharacterSequence.new ["12345", "1234"] = .error e)
    ∧ (∀ cs, CharacterSequence.new ["ab", "cd"] = .ok cs → cs.forms = ["ab", "cd"]) :=
  ⟨(characterSequence_new_spec ["12345", "1234"]).1.mpr (Or.inr ⟨"1234", by simp, by decide⟩),
   (characterSequence_new_spec ["ab", "cd"]).2⟩

/-- C10: for a successfully constructed `CharacterSequence`, `matches(index, c)`
panics (unwraps a `None`) for every `index ≥ length()`, and returns a boolean
for every `index < length()`. -/
theorem characterSequence_matches_domain (strings : List String) (cs : CharacterSequence)
    (_h : CharacterSequence.new strings = .ok cs) :
    (∀ i, cs.length ≤ i → ∀ c, cs.matches i c = none)
    ∧ (∀ i, i < cs.length → ∀ c, ∃ b, cs.matches i c = some b) := by
  constructor
  · intro i hi c
    obtain ⟨f0, rest, hf0⟩ : ∃ f0 rest, cs.forms = f0 :: rest := by
      cases hcs : cs.forms with
      | nil => exact absurd hcs cs.forms_ne
      | cons a l => exact ⟨a, l, rfl⟩
    have hlen : cs.length = f0.length := by
      simp [CharacterSequence.length, hf0]
    have hnone : f0.data[i]? = none := by
      apply List.getElem?_eq_none
      show f0.length ≤ i
      omega
    simp [CharacterSequence.matches, hf0, matchesGo, hnone]
  · intro i hi c
    exact matches_lt_total cs i c hi

def csAB : CharacterSequence := ⟨["ab"], by decide, by decide⟩

theorem characterSequence_matches_domain_witness :
    csAB.matches 2 'z' = none ∧ ∃ b, csAB.matches 0 'a' = some b :=
  ⟨(characterSequence_matches_domain ["ab"] csAB rfl).1 2 (by decide) 'z',
   (characterSequence_matches_domain ["ab"] csAB rfl).2 0 (by decide) 'a'⟩

/-! ## The sequence-violation scanner (`IllegalSequenceRule::validate`) -/

/-- A recorded violation detail: the rule's error code together with the value
of the `"sequence"` parameter (the matched run). Mirrors the
`RuleResultDetail` produced by `IllegalSequenceRule::add_error`
(src/rule/illegal_sequence_rule.rs lines 34-42), which always carries the one
error code `sequence_data.error_code()` and the map `{"sequence": match_str}`. -/
abbrev Detail := String × List Char

/-- The sentinel `'\u{ffff}'` appended to the password
(src/rule/illegal_sequence_rule.rs line 55). -/
def sentinel : Char := Char.ofNat 0xFFFF

/-- Mirrors `IllegalSequenceRule::add_error`: a detail is recorded only when
`report_all` is set or no detail has been recorded yet. -/
def add_error (report_all : Bool) (code : String) (details : List Detail)
    (match_str : List Char) : List Detail :=
  if report_all || details.isEmpty then details ++ [(code, match_str)] else details

/-- Helper for `index_of`: the `for i in 0..sequence.length()` loop, with `i =
offset` and `remaining = sequence.length() - offset` iterations left. A `none`
from `matches` (an out-of-range unwrap panic) is propagated as an error. -/
def indexOfGo (cs : CharacterSequence) (c : Char) (offset : Nat) : Nat → Except String Int
  | 0 => .ok (-1)
  | remaining + 1 =>
    match cs.matches offset c with
    | none => .error "called Option unwrap on a None value"
    | some true => .ok (Int.ofNat offset)
    | some false => indexOfGo cs c (offset + 1) remaining

/-- Mirrors `index_of` (src/rule/illegal_sequence_rule.rs lines 44-51): the
first offset of `cs` whose key position matches `c`, or `-1`. -/
def index_of (cs : CharacterSequence) (c : Char) : Except String Int :=
  indexOfGo cs c 0 cs.length

/-- The per-character scan state of `IllegalSequenceRule::validate`:
the details recorded so far, the run buffer `match_builder` (a character list,
mirroring the Rust `String`), `direction` and `prev_position`. -/
structure ScanState where
  details : List Detail
  match_builder : List Char
  direction : Int
  prev_position : Int

/-- The body of one iteration of the character loop of
`IllegalSequenceRule::validate` (src/rule/illegal_sequence_rule.rs lines 61-89)
after `position` has been computed, for a sequence of length `csLen`. The
`getLast?` panic models `match_builder.chars().last().unwrap()`. -/
def seqStepPos (len : Nat) (wrap report_all : Bool) (code : String) (csLen : Int)
    (st : ScanState) (c : Char) (position : Int) : Except String ScanState :=
  let diff0 : Int :=
    if position < 0 || st.prev_position < 0 then 0 else position - st.prev_position
  let diff : Int :=
    if wrap && (diff0 = csLen - 1 || diff0 = 1 - csLen) then diff0 - diff0.sign * csLen
    else diff0
  let details :=
    if diff ≠ st.direction ∧ st.match_builder.length ≥ len then
      add_error report_all code st.details st.match_builder
    else st.details
  if diff = 1 ∨ diff = -1 then
    if diff ≠ st.direction then
      match st.match_builder.getLast? with
      | none => .error "called Option unwrap on a None value"
      | some ch =>
        .ok ⟨details, [ch] ++ [c], diff, position⟩
    else
      .ok ⟨details, st.match_builder ++ [c], st.direction, position⟩
  else
    .ok ⟨details, [] ++ [c], 0, position⟩

/-- One iteration of the character loop: compute `position = index_of(cs, c)`
(propagating the potential `matches` panic), then run the loop body. -/
def seqStep (len : Nat) (wrap report_all : Bool) (code : String) (cs : CharacterSequence)
    (st : ScanState) (c : Char) : Except String ScanState :=
  match index_of cs c with
  | .error e => .error e
  | .ok position => seqStepPos len wrap report_all code (cs.length : Int) st c position

/-- The pass of `IllegalSequenceRule::validate` over one `CharacterSequence`:
`direction` and `prev_position` are reset to `0` and `-1`, while the recorded
details and the `match_builder` buffer carry over from the previous pass. -/
def scanSeq (len : Nat) (wrap report_all : Bool) (code : String) (chars : List Char)
    (acc : List Detail × List Char) (cs : CharacterSequence) :
    Except String (List Detail × List Char) :=
  (chars.foldlM (seqStep len wrap report_all code cs) ⟨acc.1, acc.2, 0, -1⟩).map
    fun st => (st.details, st.match_builder)

/-- Mirrors `IllegalSequenceRule::validate` (src/rule/illegal_sequence_rule.rs
lines 52-93) for a rule built from sequence data with error code `code` and
sequences `seqs`, minimum run length `len`, and the `wrap` / `report_all`
flags: append the sentinel to the password, then scan it once per sequence. -/
def validate (code : String) (seqs : List CharacterSequence) (len : Nat)
    (wrap report_all : Bool) (password : String) : Except String (List Detail) :=
  (seqs.foldlM (scanSeq len wrap report_all code (password.data ++ [sentinel]))
    ([], [])).map fun acc => acc.1

/-! ## `EnglishSequenceData` (src/rule/sequence_data.rs lines 24-84)

Each `CharacterSequence::new(...).unwrap()` of the source is modelled by a
structure literal whose invariant proofs are exactly what `new` checks; the
strings are transcribed form by form (`\u{...}` escapes converted to Lean
`\uXXXX`, `{`, `}` and `'` written as `\x7b`, `\x7d`, `\x27`). -/

inductive EnglishSequenceData where
  | Alphabetical
  | Numerical
  | USQwerty

def EnglishSequenceData.error_code : EnglishSequenceData → String
  | .Alphabetical => "ILLEGAL_ALPHABETICAL_SEQUENCE"
  | .Numerical => "ILLEGAL_NUMERICAL_SEQUENCE"
  | .USQwerty => "ILLEGAL_QWERTY_SEQUENCE"

def usQwertyRow1 : CharacterSequence :=
  ⟨["`1234567890-=",
    "~!@#$%^&*()_+",
    "\u0000¡™£¢∞§¶•ªº–≠",
    "`⁄€‹›ﬁﬂ‡°·‚—±"],
   by decide, by decide⟩

def usQwertyRow2 : CharacterSequence :=
  ⟨["qwertyuiop[]\\",
    "QWERTYUIOP\x7b\x7d|",
    "œ∑\u0000®†¥\u0000\u0000øπ“‘«",
    "Œ„´‰ˇÁ¨ˆØ∏”’»"],
   by decide, by decide⟩

def usQwertyRow3 : CharacterSequence :=
  ⟨["asdfghjkl;\x27",
    "ASDFGHJKL:\"",
    "åß∂ƒ©˙∆˚¬…æ",
    "ÅÍÎÏ˝ÓÔÒÚÆ"],
   by decide, by decide⟩

def usQwertyRow4 : CharacterSequence :=
  ⟨["zxcvbnm,./",
    "ZXCVBNM<>?",
    "9≈ç√∫\u0000µ≤≥÷",
    "¸˛Ç◊ı˜Â¯˘¿"],
   by decide, by decide⟩

def EnglishSequenceData.get_sequences : EnglishSequenceData → List CharacterSequence
  | .Alphabetical =>
    [⟨["abcdefghijklmnopqrstuvwxyz", "ABCDEFGHIJKLMNOPQRSTUVWXYZ"], by decide, by decide⟩]
  | .Numerical => [⟨["0123456789"], by decide, by decide⟩]
  | .USQwerty => [usQwertyRow1, usQwertyRow2, usQwertyRow3, usQwertyRow4]

/-- C1: validating `"pqwerty#n65"` against the US-QWERTY catalog with minimum
run length 6, `wrap = false` and `report_all = true` records exactly one
violation detail, whose `"sequence"` parameter is `"qwerty"`. -/
theorem usqwerty_pqwerty_one_violation :
    validate (EnglishSequenceData.USQwerty.error_code)
        (EnglishSequenceData.USQwerty.get_sequences) 6 false true "pqwerty#n65"
      = .ok [("ILLEGAL_QWERTY_SEQUENCE", "qwerty".data)] := rfl

/-- C4: validating `"yza"` against the English alphabetical catalog with
minimum run length 3 and `report_all = true` records no violation when
`wrap = false`, and exactly one violation with match text `"yza"` when
`wrap = true`. -/
theorem alphabetical_yza_wrap_fold :
    validate (EnglishSequenceData.Alphabetical.error_code)
        (EnglishSequenceData.Alphabetical.get_sequences) 3 false true "yza" = .ok []
    ∧ validate (EnglishSequenceData.Alphabetical.error_code)
        (EnglishSequenceData.Alphabetical.get_sequences) 3 true true "yza"
      = .ok [("ILLEGAL_ALPHABETICAL_SEQUENCE", "yza".data)] :=
  ⟨rfl, rfl⟩

theorem indexOfGo_ok (cs : CharacterSequence) (c : Char) :
    ∀ (remaining offset : Nat), offset + remaining ≤ cs.length →
      ∃ p, indexOfGo cs c offset remaining = .ok p := by
  intro remaining
  induction remaining with
  | zero => intro offset _; exact ⟨-1, rfl⟩
  | succ n ih =>
    intro offset h
    obtain ⟨b, hb⟩ := matches_lt_total cs offset c (by omega)
    cases b with
    | true => exact ⟨Int.ofNat offset, by simp [indexOfGo, hb]⟩
    | false =>
      obtain ⟨p, hp⟩ := ih (offset + 1) (by omega)
      exact ⟨p, by simp [indexOfGo, hb, hp]⟩

theorem index_of_ok (cs : CharacterSequence) (c : Char) :
    ∃ p, index_of cs c = .ok p :=
  indexOfGo_ok cs c cs.length 0 (by omega)

theorem seqStepPos_fresh (len : Nat) (wrap report_all : Bool) (code : String) (csLen : Int)
    (d : List Detail) (mb : List Char) (c : Char) (p : Int) :
    seqStepPos len wrap report_all code csLen ⟨d, mb, 0, -1⟩ c p = .ok ⟨d, [c], 0, p⟩ := by
  unfold seqStepPos
  have hdiff0 : (if (decide (p < 0) || decide ((-1 : Int) < 0)) = true then (0 : Int)
      else p - (-1)) = 0 := by
    simp
  simp only [hdiff0]
  have hdiff : (if (wrap && (decide ((0 : Int) = csLen - 1) || decide ((0 : Int) = 1 - csLen)))
      = true then (0 : Int) - (Int.sign 0) * csLen else 0) = 0 := by
    split <;> simp
  simp only [hdiff]
  simp

theorem seqStep_fresh (len : Nat) (wrap report_all : Bool) (code : String)
    (cs : CharacterSequence) (d : List Detail) (mb : List Char) (c : Char) :
    ∃ p, seqStep len wrap report_all code cs ⟨d, mb, 0, -1⟩ c = .ok ⟨d, [c], 0, p⟩ := by
  obtain ⟨p, hp⟩ := index_of_ok cs c
  refine ⟨p, ?_⟩
  rw [seqStep, hp]
  exact seqStepPos_fresh len wrap report_all code (cs.length : Int) d mb c p

theorem scanSeq_single_sentinel (len : Nat) (wrap report_all : Bool) (code : String)
    (d : List Detail) (mb : List Char) (cs : CharacterSequence) :
    scanSeq len wrap report_all code [sentinel] (d, mb) cs = .ok (d, [sentinel]) := by
  obtain ⟨p, hp⟩ := seqStep_fresh len wrap report_all code cs d mb sentinel
  simp [scanSeq, List.foldlM, hp, Except.map]

theorem foldl_sentinel_only (len : Nat) (wrap report_all : Bool) (code : String) :
    ∀ (seqs : List CharacterSequence) (d : List Detail) (mb : List Char),
      ∃ mb2, seqs.foldlM (scanSeq len wrap report_all code [sentinel]) (d, mb) = .ok (d, mb2) := by
  intro seqs
  induction seqs with
  | nil => intro d mb; exact ⟨mb, rfl⟩
  | cons cs rest ih =>
    intro d mb
    obtain ⟨mb2, h2⟩ := ih d [sentinel]
    refine ⟨mb2, ?_⟩
    rw [List.foldlM_cons, scanSeq_single_sentinel]
    exact h2

/-- C6 (amended): for every catalog, run length, and `wrap`/`report_all`
setting, scanning the empty password yields zero violations, and scanning any
password against an empty catalog yields zero violations. (The claim's third
clause — that minimum run length 0 also yields zero violations — is false; see
the counterexample.) -/
theorem scanner_trivial_inputs :
    (∀ (code : String) (seqs : List CharacterSequence) (len : Nat) (wrap report_all : Bool),
        validate code seqs len wrap report_all "" = .ok [])
    ∧ (∀ (code : String) (len : Nat) (wrap report_all : Bool) (password : String),
        validate code [] len wrap report_all password = .ok []) := by
  constructor
  · intro code seqs len wrap report_all
    obtain ⟨mb2, h⟩ := foldl_sentinel_only len wrap report_all code seqs [] []
    show (seqs.foldlM (scanSeq len wrap report_all code ("".data ++ [sentinel])) ([], [])).map
        (fun acc => acc.1) = .ok []
    have : "".data ++ [sentinel] = [sentinel] := rfl
    rw [this, h]
    rfl
  · intro code len wrap report_all password
    rfl

/-! ### Reporting policy (`report_all`) -/

/-- Keep only the first recorded detail of a scan state. -/
def takeSt (st : ScanState) : ScanState :=
  ⟨st.details.take 1, st.match_builder, st.direction, st.prev_position⟩

/-- Keep only the first recorded detail of an accumulator. -/
def takeAcc (acc : List Detail × List Char) : List Detail × List Char :=
  (acc.1.take 1, acc.2)

theorem add_error_take (code : String) (mb : List Char) (l : List Detail) :
    add_error false code (l.take 1) mb = (add_error true code l mb).take 1 := by
  cases l <;> simp [add_error]

theorem seqStepPos_take (len : Nat) (wrap : Bool) (code : String) (csLen : Int)
    (l : List Detail) (mb : List Char) (dir prev : Int) (c : Char) (p : Int) :
    seqStepPos len wrap false code csLen ⟨l.take 1, mb, dir, prev⟩ c p
      = (seqStepPos len wrap true code csLen ⟨l, mb, dir, prev⟩ c p).map takeSt := by
  dsimp only [seqStepPos]
  split_ifs <;> (try cases hL : mb.getLast?) <;>
    simp_all [add_error_take, takeSt, Except.map]

theorem seqStep_take (len : Nat) (wrap : Bool) (code : String) (cs : CharacterSequence)
    (l : List Detail) (mb : List Char) (dir prev : Int) (c : Char) :
    seqStep len wrap false code cs ⟨l.take 1, mb, dir, prev⟩ c
      = (seqStep len wrap true code cs ⟨l, mb, dir, prev⟩ c).map takeSt := by
  unfold seqStep
  cases index_of cs c with
  | error e => rfl
  | ok p => exact seqStepPos_take len wrap code (cs.length : Int) l mb dir prev c p

theorem scanFold_take (len : Nat) (wrap : Bool) (code : String) (cs : CharacterSequence) :
    ∀ (chars : List Char) (st : ScanState),
      chars.foldlM (seqStep len wrap false code cs) (takeSt st)
        = (chars.foldlM (seqStep len wrap true code cs) st).map takeSt := by
  intro chars
  induction chars with
  | nil => intro st; rfl
  | cons c rest ih =>
    intro st
    rw [List.foldlM_cons, List.foldlM_cons]
    have h1 : seqStep len wrap false code cs (takeSt st) c
        = (seqStep len wrap true code cs st c).map takeSt := by
      cases st; exact seqStep_take len wrap code cs _ _ _ _ c
    rw [h1]
    cases seqStep len wrap true code cs st c with
    | error e => rfl
    | ok st2 => exact ih st2

theorem scanSeq_take (len : Nat) (wrap : Bool) (code : String) (chars : List Char)
    (acc : List Detail × List Char) (cs : CharacterSequence) :
    scanSeq len wrap false code chars (takeAcc acc) cs
      = (scanSeq len wrap true code chars acc cs).map takeAcc := by
  unfold scanSeq takeAcc
  have h0 : (⟨(acc.1.take 1 : List Detail), acc.2, 0, -1⟩ : ScanState)
      = takeSt ⟨acc.1, acc.2, 0, -1⟩ := rfl
  rw [h0, scanFold_take]
  cases chars.foldlM (seqStep len wrap true code cs) ⟨acc.1, acc.2, 0, -1⟩ with
  | error e => rfl
  | ok st => rfl

theorem seqsFold_take (len : Nat) (wrap : Bool) (code : String) (chars : List Char) :
    ∀ (seqs : List CharacterSequence) (acc : List Detail × List Char),
      seqs.foldlM (scanSeq len wrap false code chars) (takeAcc acc)
        = (seqs.foldlM (scanSeq len wrap true code chars) acc).map takeAcc := by
  intro seqs
  induction seqs with
  | nil => intro acc; rfl
  | cons cs rest ih =>
    intro acc
    rw [List.foldlM_cons, List.foldlM_cons, scanSeq_take]
    cases scanSeq len wrap true code chars acc cs with
    | error e => rfl
    | ok acc2 => exact ih acc2

/-- C9: when `report_all` is false the scan records exactly the first violation
seen in scan order (the result of the `report_all = true` scan truncated to its
first detail); when `report_all` is true, every recorded violation appears, and
in particular a non-empty all-violations result `d :: ds` makes the
single-report scan return exactly `[d]`. -/
theorem report_all_policy (code : String) (seqs : List CharacterSequence) (len : Nat)
    (wrap : Bool) (password : String) (l : List Detail)
    (h : validate code seqs len wrap true password = .ok l) :
    validate code seqs len wrap false password = .ok (l.take 1)
    ∧ ∀ d ds, l = d :: ds → validate code seqs len wrap false password = .ok [d] := by
  have key : validate code seqs len wrap false password = .ok (l.take 1) := by
    unfold validate at h ⊢
    have h0 : (([], []) : List Detail × List Char) = takeAcc ([], []) := rfl
    rw [h0, seqsFold_take]
    cases hf : seqs.foldlM (scanSeq len wrap true code (password.data ++ [sentinel])) ([], []) with
    | error e => rw [hf] at h; cases h
    | ok acc =>
      rw [hf] at h
      have hacc : acc.1 = l := by
        simpa [Except.map] using h
      simp [Except.map, takeAcc, hacc]
  refine ⟨key, fun d ds hl => ?_⟩
  rw [key, hl]
  rfl

theorem report_all_policy_witness :
    validate (EnglishSequenceData.Numerical.error_code)
        (EnglishSequenceData.Numerical.get_sequences) 5 true false "1234567"
      = .ok [("ILLEGAL_NUMERICAL_SEQUENCE", "1234567".data)] :=
  (report_all_policy (EnglishSequenceData.Numerical.error_code)
    (EnglishSequenceData.Numerical.get_sequences) 5 true "1234567"
    [("ILLEGAL_NUMERICAL_SEQUENCE", "1234567".data)] rfl).1

/-! ### The scanner is total: no unwrap can fire on valid inputs

The two panic sites of `IllegalSequenceRule::validate` are the unwrap inside
`CharacterSequence::matches` (unreachable because `index_of` only probes
offsets below `cs.length()` and every form of a constructed sequence has that
length) and `match_builder.chars().last().unwrap()` (unreachable because a
direction change to `±1` requires `prev_position ≥ 0`, which forces at least
one earlier iteration in the same pass, and every iteration ends by pushing a
character onto `match_builder`). -/

theorem seqStepPos_no_panic (len : Nat) (wrap report_all : Bool) (code : String) (csLen : Int)
    (l : List Detail) (mb : List Char) (dir prev : Int) (c : Char) (p : Int)
    (hP : 0 ≤ prev → mb ≠ []) :
    ∃ st2, seqStepPos len wrap report_all code csLen ⟨l, mb, dir, prev⟩ c p = .ok st2
      ∧ st2.match_builder ≠ [] := by
  dsimp only [seqStepPos]
  split_ifs with h1 h2 h3 h4 h5 h6 h7 h8 h9 h10 h11 h12 h13 h14 <;>
    first
    | exact ⟨_, rfl, by simp⟩
    | (exfalso; simp_all [Int.sign_zero]; done)
    | (have hprev : (0 : Int) ≤ prev := by
         simp only [Bool.or_eq_true, decide_eq_true_eq] at h1
         omega
       have hmb : mb ≠ [] := hP hprev
       rw [List.getLast?_eq_getLast mb hmb]
       exact ⟨_, rfl, by simp⟩)

theorem seqStep_no_panic (len : Nat) (wrap report_all : Bool) (code : String)
    (cs : CharacterSequence) (st : ScanState) (c : Char)
    (hP : 0 ≤ st.prev_position → st.match_builder ≠ []) :
    ∃ st2, seqStep len wrap report_all code cs st c = .ok st2 ∧ st2.match_builder ≠ [] := by
  obtain ⟨p, hp⟩ := index_of_ok cs c
  cases st with
  | mk l mb dir prev =>
    obtain ⟨st2, h2, hmb⟩ := seqStepPos_no_panic len wrap report_all code _ l mb dir prev c p hP
    refine ⟨st2, ?_, hmb⟩
    rw [seqStep, hp]
    exact h2

theorem scanFold_no_panic (len : Nat) (wrap report_all : Bool) (code : String)
    (cs : CharacterSequence) :
    ∀ (chars : List Char) (st : ScanState), (0 ≤ st.prev_position → st.match_builder ≠ []) →
      ∃ st2, chars.foldlM (seqStep len wrap report_all code cs) st = .ok st2 := by
  intro chars
  induction chars with
  | nil => intro st _; exact ⟨st, rfl⟩
  | cons c rest ih =>
    intro st hP
    obtain ⟨st1, h1, hmb⟩ := seqStep_no_panic len wrap report_all code cs st c hP
    obtain ⟨st2, h2⟩ := ih st1 (fun _ => hmb)
    refine ⟨st2, ?_⟩
    rw [List.foldlM_cons, h1]
    exact h2

theorem scanSeq_no_panic (len : Nat) (wrap report_all : Bool) (code : String)
    (chars : List Char) (acc : List Detail × List Char) (cs : CharacterSequence) :
    ∃ acc2, scanSeq len wrap report_all code chars acc cs = .ok acc2 := by
  obtain ⟨st2, h2⟩ := scanFold_no_panic len wrap report_all code cs chars
    ⟨acc.1, acc.2, 0, -1⟩ (fun h => absurd h (by norm_num))
  exact ⟨(st2.details, st2.match_builder), by rw [scanSeq, h2]; rfl⟩

theorem validate_no_panic (code : String) (seqs : List CharacterSequence) (len : Nat)
    (wrap report_all : Bool) (password : String) :
    ∃ l, validate code seqs len wrap report_all password = .ok l := by
  suffices h : ∀ (ss : List CharacterSequence) (acc : List Detail × List Char),
      ∃ acc2, ss.foldlM (scanSeq len wrap report_all code (password.data ++ [sentinel])) acc
        = .ok acc2 by
    obtain ⟨acc2, h2⟩ := h seqs ([], [])
    exact ⟨acc2.1, by rw [validate, h2]; rfl⟩
  intro ss
  induction ss with
  | nil => intro acc; exact ⟨acc, rfl⟩
  | cons cs rest ih =>
    intro acc
    obtain ⟨acc1, h1⟩ := scanSeq_no_panic len wrap report_all code
      (password.data ++ [sentinel]) acc cs
    obtain ⟨acc2, h2⟩ := ih acc1
    refine ⟨acc2, ?_⟩
    rw [List.foldlM_cons, h1]
    exact h2

/-- C6 (counterexample): with minimum run length 0 the scanner does *not*
yield zero violations — validating `"01"` against the numerical catalog with
`L = 0`, `wrap = false`, `report_all = true` records two violations. -/
theorem scanner_length_zero_counterexample :
    validate (EnglishSequenceData.Numerical.error_code)
        (EnglishSequenceData.Numerical.get_sequences) 0 false true "01"
      = .ok [("ILLEGAL_NUMERICAL_SEQUENCE", "0".data), ("ILLEGAL_NUMERICAL_SEQUENCE", "01".data)]
    ∧ validate (EnglishSequenceData.Numerical.error_code)
        (EnglishSequenceData.Numerical.get_sequences) 0 false true "01" ≠ .ok [] := by
  refine ⟨rfl, fun h => ?_⟩
  rw [show validate (EnglishSequenceData.Numerical.error_code)
        (EnglishSequenceData.Numerical.get_sequences) 0 false true "01"
      = .ok [("ILLEGAL_NUMERICAL_SEQUENCE", "0".data), ("ILLEGAL_NUMERICAL_SEQUENCE", "01".data)]
    from rfl] at h
  simp at h

/-! ## Word lists and binary search
(src/dictionary/word_lists/mod.rs, src/word_lists/array_word_list.rs) -/

/-- Mirrors `case_sensitive_comparator` (`a.cmp(b)`): Rust compares `&str`
bytewise, which on valid UTF-8 coincides with lexicographic order on the
character (code point) sequences, i.e. Lean's `compare` on `String`. -/
def case_sensitive_comparator (a b : String) : Ordering := compare a b

/-- Mirrors `case_insensitive_comparator`
(`a.to_lowercase().cmp(&b.to_lowercase())`); lowercasing is per-character here,
which agrees with Rust on the ASCII word lists the repository exercises. -/
def case_insensitive_comparator (a b : String) : Ordering :=
  compare a.toLower b.toLower

/-- Mirrors `ArrayWordList`: the word vector, the case-sensitivity flag, and
the comparator selected at construction. `binary_search` is generic over the
`WordLists` trait, so the comparator field is kept abstract here. -/
structure ArrayWordList where
  words : List String
  case_sensitive : Bool
  comparator : String → String → Ordering

/-- The loop of `binary_search` (src/dictionary/word_lists/mod.rs lines 77-95).
The source keeps a running `size` variable updated to `right - left` at the end
of each iteration and initialised to `len = right - left`; it therefore always
equals `right - left` when `mid` is computed, and is inlined as such. The
indexing `word_list[mid]` panics (`error`) when `mid` is out of bounds; the
comparison is `comparator(words[mid], word)` with `Less → left = mid + 1`,
`Greater → right = mid`, and an immediate `Some(mid)` on `Equal`. -/
def bsLoop (cmp : String → String → Ordering) (words : List String) (word : String)
    (left right : Nat) : Except String (Option Nat) :=
  if _hlr : left < right then
    if hmid : left + (right - left) / 2 < words.length then
      match cmp (words.get ⟨left + (right - left) / 2, hmid⟩) word with
      | .lt => bsLoop cmp words word (left + (right - left) / 2 + 1) right
      | .gt => bsLoop cmp words word left (left + (right - left) / 2)
      | .eq => .ok (some (left + (right - left) / 2))
    else .error "index out of bounds"
  else .ok none
termination_by right - left
decreasing_by
  all_goals
    (have h2 : (right - left) / 2 < right - left := Nat.div_lt_self (by omega) (by omega)
     omega)

/-- Mirrors `binary_search`: `size = len`, `left = 0`, `right = size`. -/
def binary_search (word_list : ArrayWordList) (word : String) : Except String (Option Nat) :=
  bsLoop word_list.comparator word_list.words word 0 word_list.words.length

theorem bsLoop_ok (cmp : String → String → Ordering) (words : List String) (word : String) :
    ∀ (n left right : Nat), right - left ≤ n → right ≤ words.length →
      ∃ r, bsLoop cmp words word left right = .ok r := by
  intro n
  induction n with
  | zero =>
    intro left right hn _
    rw [bsLoop, dif_neg (by omega)]
    exact ⟨none, rfl⟩
  | succ n ih =>
    intro left right hn hlen
    by_cases hlr : left < right
    · have h2 : (right - left) / 2 < right - left := Nat.div_lt_self (by omega) (by omega)
      have hmidlen : left + (right - left) / 2 < words.length := by omega
      rw [bsLoop, dif_pos hlr, dif_pos hmidlen]
      simp only [List.get_eq_getElem]
      cases cmp words[left + (right - left) / 2] word with
      | lt => exact ih (left + (right - left) / 2 + 1) right (by omega) hlen
      | gt => exact ih left (left + (right - left) / 2) (by omega) (by omega)
      | eq => exact ⟨some (left + (right - left) / 2), rfl⟩
    · rw [bsLoop, dif_neg hlr]
      exact ⟨none, rfl⟩

theorem bsLoop_none (cmp : String → String → Ordering) (words : List String) (word : String)
    (hno : ∀ k (hk : k < words.length), cmp words[k] word ≠ .eq) :
    ∀ (n left right : Nat), right - left ≤ n → right ≤ words.length →
      bsLoop cmp words word left right = .ok none := by
  intro n
  induction n with
  | zero =>
    intro left right hn _
    rw [bsLoop, dif_neg (by omega)]
  | succ n ih =>
    intro left right hn hlen
    by_cases hlr : left < right
    · have h2 : (right - left) / 2 < right - left := Nat.div_lt_self (by omega) (by omega)
      have hmidlen : left + (right - left) / 2 < words.length := by omega
      rw [bsLoop, dif_pos hlr, dif_pos hmidlen]
      simp only [List.get_eq_getElem]
      cases hc : cmp words[left + (right - left) / 2] word with
      | lt => exact ih (left + (right - left) / 2 + 1) right (by omega) hlen
      | gt => exact ih left (left + (right - left) / 2) (by omega) (by omega)
      | eq => exact absurd hc (hno _ hmidlen)
    · rw [bsLoop, dif_neg hlr]

theorem bsLoop_finds (cmp : String → String → Ordering) (words : List String) (word : String)
    (hsort : ∀ i j (hi : i < words.length) (hj : j < words.length),
      i < j → cmp words[i] words[j] ≠ .gt)
    (h1 : ∀ a ∈ words, ∀ b ∈ words, cmp a b ≠ .gt → cmp b word = .lt → cmp a word = .lt)
    (h2 : ∀ a ∈ words, ∀ b ∈ words, cmp a b ≠ .gt → cmp a word = .gt → cmp b word = .gt) :
    ∀ (n left right : Nat), right - left ≤ n → right ≤ words.length →
      (∃ k, ∃ hk : k < words.length, left ≤ k ∧ k < right ∧ cmp words[k] word = .eq) →
      ∃ i, ∃ hi : i < words.length,
        bsLoop cmp words word left right = .ok (some i) ∧ cmp words[i] word = .eq := by
  intro n
  induction n with
  | zero =>
    intro left right hn _ ⟨k, hk, hlk, hkr, _⟩
    omega
  | succ n ih =>
    intro left right hn hlen ⟨k, hk, hlk, hkr, hkeq⟩
    have hlr : left < right := by omega
    have hd2 : (right - left) / 2 < right - left := Nat.div_lt_self (by omega) (by omega)
    have hmid : left + (right - left) / 2 < right := by omega
    have hmidlen : left + (right - left) / 2 < words.length := by omega
    rw [bsLoop, dif_pos hlr, dif_pos hmidlen]
    simp only [List.get_eq_getElem]
    cases hc : cmp words[left + (right - left) / 2] word with
    | lt =>
      have hkgt : left + (right - left) / 2 < k := by
        by_contra hle
        rcases Nat.lt_or_ge k (left + (right - left) / 2) with hklt | hkge
        · have hle2 := hsort k (left + (right - left) / 2) (by omega) hmidlen hklt
          have := h1 words[k] (List.getElem_mem hk) (words[left + (right - left) / 2])
            (List.getElem_mem hmidlen) hle2 hc
          rw [hkeq] at this
          cases this
        · have hkm : k = left + (right - left) / 2 := by omega
          subst hkm
          rw [hkeq] at hc
          cases hc
      exact ih (left + (right - left) / 2 + 1) right (by omega) hlen
        ⟨k, hk, by omega, hkr, hkeq⟩
    | gt =>
      have hklt : k < left + (right - left) / 2 := by
        by_contra hge
        rcases Nat.lt_or_ge (left + (right - left) / 2) k with hlt | hge2
        · have hle2 := hsort (left + (right - left) / 2) k hmidlen hk hlt
          have := h2 (words[left + (right - left) / 2]) (List.getElem_mem hmidlen)
            words[k] (List.getElem_mem hk) hle2 hc
          rw [hkeq] at this
          cases this
        · have hkm : k = left + (right - left) / 2 := by omega
          subst hkm
          rw [hkeq] at hc
          cases hc
      exact ih left (left + (right - left) / 2) (by omega) (by omega)
        ⟨k, hk, hlk, hklt, hkeq⟩
    | eq => exact ⟨left + (right - left) / 2, hmidlen, rfl, hc⟩

/-- C2: for a `WordList` sorted under its own comparator (a total-order
comparator: `≤`-transitivity relative to the target is assumed on the list's
entries), a target that compares `Equal` to exactly one entry makes
`binary_search` return `Some(i)` with entry `i` comparing `Equal`, and a target
that compares `Equal` to no entry makes it return "not found". -/
theorem binary_search_correct (wl : ArrayWordList) (word : String)
    (hsort : List.Pairwise (fun a b => wl.comparator a b ≠ .gt) wl.words)
    (h1 : ∀ a ∈ wl.words, ∀ b ∈ wl.words,
      wl.comparator a b ≠ .gt → wl.comparator b word = .lt → wl.comparator a word = .lt)
    (h2 : ∀ a ∈ wl.words, ∀ b ∈ wl.words,
      wl.comparator a b ≠ .gt → wl.comparator a word = .gt → wl.comparator b word = .gt) :
    ((∃ k, ∃ hk : k < wl.words.length, wl.comparator wl.words[k] word = .eq
        ∧ ∀ j (hj : j < wl.words.length), wl.comparator wl.words[j] word = .eq → j = k) →
      ∃ i, ∃ hi : i < wl.words.length,
        binary_search wl word = .ok (some i) ∧ wl.comparator wl.words[i] word = .eq)
    ∧ ((∀ k (hk : k < wl.words.length), wl.comparator wl.words[k] word ≠ .eq) →
      binary_search wl word = .ok none) := by
  constructor
  · intro ⟨k, hk, hkeq, _⟩
    have hsort' : ∀ i j (hi : i < wl.words.length) (hj : j < wl.words.length),
        i < j → wl.comparator wl.words[i] wl.words[j] ≠ .gt := by
      intro i j hi hj hij
      exact List.pairwise_iff_getElem.mp hsort i j hi hj hij
    exact bsLoop_finds wl.comparator wl.words word hsort' h1 h2
      wl.words.length 0 wl.words.length (by omega) (by omega)
      ⟨k, hk, by omega, hk, hkeq⟩
  · intro hno
    exact bsLoop_none wl.comparator wl.words word hno
      wl.words.length 0 wl.words.length (by omega) (by omega)

/-! ## Sorter strategies (src/dictionary/word_lists/sort.rs)

Loops over index ranges are modelled structurally with an explicit iteration
count equal to the Rust range size. `usize` subtraction in range bounds is the
one place where overflow matters: for an empty array `BubbleSort` and
`SelectionSort` compute `n - 1` with `n = 0`, which panics in debug builds and
wraps in release builds; the wrapped range makes the first body iteration index
the empty array out of bounds (`array[0]` resp. `array.swap(0, 0)`), a panic in
either build, modelled as `error`. `QuickSort` (which panics on the empty array
in debug builds only, via `(len - 1) as isize`) is not modelled. -/

/-- Rust `<[String]>::swap(i, j)` for in-bounds `i`, `j`. -/
def listSwap (a : List String) (i j : Nat) : List String :=
  (a.set i (a.getD j "")).set j (a.getD i "")

/-- Inner loop of `BubbleSort::sort_with_comparator`:
`for j in 0..(n - 1 - i)`, compare `array[j]` with `array[j + 1]` and swap when
greater; `rem` is the number of iterations left. -/
def bubbleInner (cmp : String → String → Ordering) : List String → Nat → Nat → List String
  | a, _, 0 => a
  | a, j, rem + 1 =>
    bubbleInner cmp
      (if cmp (a.getD j "") (a.getD (j + 1) "") = .gt then listSwap a j (j + 1) else a)
      (j + 1) rem

/-- Outer loop of `BubbleSort::sort_with_comparator`: `for i in 0..(n - 1)`. -/
def bubbleOuter (cmp : String → String → Ordering) : List String → Nat → Nat → List String
  | a, _, 0 => a
  | a, i, rem + 1 => bubbleOuter cmp (bubbleInner cmp a 0 (a.length - 1 - i)) (i + 1) rem

/-- Mirrors `impl ArraySorter for BubbleSort` (src/dictionary/word_lists/sort.rs
lines 19-35). With `n = 0` the bound `n - 1` underflows and the first inner
iteration indexes `array[0]` out of bounds: a panic either way, as `error`. -/
def bubble_sort (cmp : String → String → Ordering) (a : List String) :
    Except String (List String) :=
  if a.length = 0 then .error "index out of bounds"
  else .ok (bubbleOuter cmp a 0 (a.length - 1))

/-- Inner pass of `BubbleSortOptimized` (`for i in 1..len`), returning the
array and `new_len`, the index of the last swap (0 when none). -/
def boptInner (cmp : String → String → Ordering) :
    List String → Nat → Nat → Nat → List String × Nat
  | a, _, nl, 0 => (a, nl)
  | a, i, nl, rem + 1 =>
    if cmp (a.getD (i - 1) "") (a.getD i "") = .gt then
      boptInner cmp (listSwap a (i - 1) i) (i + 1) i rem
    else boptInner cmp a (i + 1) nl rem

/-- Outer `loop` of `BubbleSortOptimized`: repeat passes until no swap occurred
(`new_len == 0`), shrinking `len` to `new_len`. Since each pass strictly
decreases `len`, `fuel = len + 1` iterations always suffice, so the fuel-out
arm is unreachable from `bubble_sort_optimized`. -/
def boptLoop (cmp : String → String → Ordering) : List String → Nat → Nat → List String
  | a, _, 0 => a
  | a, len, fuel + 1 =>
    match boptInner cmp a 1 0 (len - 1) with
    | (a2, nl) => if nl = 0 then a2 else boptLoop cmp a2 nl fuel

/-- Mirrors `impl ArraySorter for BubbleSortOptimized`
(src/dictionary/word_lists/sort.rs lines 40-63); total, `n = 0` gives an empty
pass and terminates. -/
def bubble_sort_optimized (cmp : String → String → Ordering) (a : List String) :
    Except String (List String) :=
  .ok (boptLoop cmp a a.length (a.length + 1))

/-- Inner `while` of `InsertionSort`: while `j > 0` and `array[j] < array[j-1]`,
swap downward. -/
def insInner (cmp : String → String → Ordering) : List String → Nat → List String
  | a, 0 => a
  | a, j + 1 =>
    if cmp (a.getD (j + 1) "") (a.getD j "") = .lt then insInner cmp (listSwap a (j + 1) j) j
    else a

/-- Outer loop of `InsertionSort`: `for i in 1..array.len()`. -/
def insOuter (cmp : String → String → Ordering) : List String → Nat → Nat → List String
  | a, _, 0 => a
  | a, i, rem + 1 => insOuter cmp (insInner cmp a i) (i + 1) rem

/-- Mirrors `impl ArraySorter for InsertionSort` (src/dictionary/word_lists/sort.rs
lines 85-98); total, the `1..0` range of an empty array is empty. -/
def insertion_sort (cmp : String → String → Ordering) (a : List String) :
    Except String (List String) :=
  .ok (insOuter cmp a 1 (a.length - 1))

/-- Inner loop of `SelectionSort`: `for j in (i+1)..n`, tracking the index of
the least element. -/
def selMin (cmp : String → String → Ordering) : List String → Nat → Nat → Nat → Nat
  | _, _, min, 0 => min
  | a, j, min, rem + 1 =>
    selMin cmp a (j + 1) (if cmp (a.getD j "") (a.getD min "") = .lt then j else min) rem

/-- Outer loop of `SelectionSort`: `for i in 0..(n - 1)`, swap the minimum of
the tail into position `i`. -/
def selOuter (cmp : String → String → Ordering) : List String → Nat → Nat → List String
  | a, _, 0 => a
  | a, i, rem + 1 =>
    selOuter cmp (listSwap a (selMin cmp a (i + 1) i (a.length - (i + 1))) i) (i + 1) rem

/-- Mirrors `impl ArraySorter for SelectionSort` (src/dictionary/word_lists/sort.rs
lines 149-165). With `n = 0` the bound `n - 1` underflows and the first
iteration executes `array.swap(0, 0)` on the empty array: a panic either way. -/
def selection_sort (cmp : String → String → Ordering) (a : List String) :
    Except String (List String) :=
  if a.length = 0 then .error "index out of bounds"
  else .ok (selOuter cmp a 0 (a.length - 1))

/-- Mirrors `impl ArraySorter for SliceSort` (`array.sort_by(compare)`): Rust's
stable sort, modelled by the stable `mergeSort` with the `≤` relation
`compare(a, b) != Greater`. -/
def slice_sort (cmp : String → String → Ordering) (a : List String) :
    Except String (List String) :=
  .ok (a.mergeSort (fun x y => decide (cmp x y ≠ .gt)))

/-- The sorter strategies of src/dictionary/word_lists/sort.rs (minus
`QuickSort`, see above). -/
inductive ArraySorter where
  | BubbleSort
  | BubbleSortOptimized
  | SliceSort
  | InsertionSort
  | SelectionSort

def ArraySorter.sort_with_comparator : ArraySorter →
    (String → String → Ordering) → List String → Except String (List String)
  | .BubbleSort => bubble_sort
  | .BubbleSortOptimized => bubble_sort_optimized
  | .SliceSort => slice_sort
  | .InsertionSort => insertion_sort
  | .SelectionSort => selection_sort

/-- Mirrors `ArrayWordList::with_sorter` (src/word_lists/array_word_list.rs
lines 24-44): select the comparator from the case-sensitivity flag, sort in
place when a sorter is supplied, and build the word list. -/
def with_sorter (words : List String) (case_sensitive : Bool)
    (sorter : Option ArraySorter) : Except String ArrayWordList :=
  match sorter with
  | none =>
    .ok ⟨words, case_sensitive,
      if case_sensitive then case_sensitive_comparator else case_insensitive_comparator⟩
  | some s =>
    (s.sort_with_comparator
        (if case_sensitive then case_sensitive_comparator else case_insensitive_comparator)
        words).map
      fun ws => ⟨ws, case_sensitive,
        if case_sensitive then case_sensitive_comparator else case_insensitive_comparator⟩

/-- C7: constructing a word list from an *empty* word sequence. `BubbleSort`
and `SelectionSort` panic (usize underflow in the range bound, then an
out-of-bounds access on the empty array) — contradicting the claim — while the
optimized bubble sort, insertion sort, the native sort, and no-sorter
construction succeed with a length-0 list. (`QuickSort`, not modelled, panics
in debug builds only.) -/
theorem empty_wordlist_sorter_bug :
    with_sorter [] true (some .BubbleSort) = .error "index out of bounds"
    ∧ with_sorter [] true (some .SelectionSort) = .error "index out of bounds"
    ∧ (with_sorter [] true (some .BubbleSortOptimized)).map (fun wl => wl.words) = .ok []
    ∧ (with_sorter [] true (some .InsertionSort)).map (fun wl => wl.words) = .ok []
    ∧ (with_sorter [] true (some .SliceSort)).map (fun wl => wl.words) = .ok []
    ∧ (with_sorter [] true none).map (fun wl => wl.words) = .ok [] :=
  ⟨rfl, rfl, rfl, rfl,
   by simp [with_sorter, ArraySorter.sort_with_comparator, slice_sort, Except.map],
   rfl⟩

theorem binary_search_correct_witness :
    (∃ i, ∃ hi : i < (["a", "b", "c"] : List String).length,
      binary_search ⟨["a", "b", "c"], true, case_sensitive_comparator⟩ "b" = .ok (some i)
        ∧ case_sensitive_comparator (["a", "b", "c"][i]) "b" = .eq)
    ∧ binary_search ⟨["a", "b", "c"], true, case_sensitive_comparator⟩ "d" = .ok none :=
  ⟨(binary_search_correct ⟨["a", "b", "c"], true, case_sensitive_comparator⟩ "b"
      (by decide) (by decide) (by decide)).1
    ⟨1, by decide, by decide, by decide⟩,
   (binary_search_correct ⟨["a", "b", "c"], true, case_sensitive_comparator⟩ "d"
      (by decide) (by decide) (by decide)).2 (by decide)⟩

/-- C8: the query operations are total over valid inputs — `binary_search`
never panics (its `word_list[mid]` index stays in bounds) and the sequence
scan never panics (neither unwrap can fire, see `validate_no_panic`) — and
absence of a match is an `Ok` value (`none` / the empty detail list), never an
error. (The ternary-tree `search`, whose implementation file is absent from
the sources, is modelled as the total function `TernaryTreeDictionary.search`
below.) -/
theorem queries_never_panic :
    (∀ (wl : ArrayWordList) (word : String), ∃ r, binary_search wl word = .ok r)
    ∧ (∀ (code : String) (seqs : List CharacterSequence) (len : Nat) (wrap report_all : Bool)
        (password : String), ∃ l, validate code seqs len wrap report_all password = .ok l) :=
  ⟨fun wl word =>
    bsLoop_ok wl.comparator wl.words word wl.words.length 0 wl.words.length
      (by omega) (by omega),
   fun code seqs len wrap report_all password =>
    validate_no_panic code seqs len wrap report_all password⟩

/-! ## The ternary search tree dictionary (spec-modelled)

The `Tst` implementation (`src/dictionary/ternary_tree/tree.rs`) is absent
from the sources; the spec (sections 3 and 4.3) is the authority for the
definitions below, while `with_wordlist` follows the present
`src/dictionary/ternary_tree/mod.rs`. -/

/-- Modelled from the spec: the ternary-search-tree node of §3 (`TSTNode`:
`key`, a presence flag, and exclusively owned `left`/`mid`/`right` children —
`nil` standing for an absent child). The implementation file
`src/dictionary/ternary_tree/tree.rs` is absent from the sources; only its
callers (`TernaryTreeDictionary` in mod.rs) are present. -/
inductive Tst where
  | nil : Tst
  | node (key : Char) (val : Bool) (left mid right : Tst) : Tst

/-- Modelled from the spec (§3, §4.3): a word of length L is represented by a
chain of exactly L `mid`-linked nodes, with the value present only on the node
ending the chain — the nodes created when insertion descends past a `nil`. -/
def chainT : Char → List Char → Tst
  | c, [] => .node c true .nil .nil .nil
  | c, c2 :: rest => .node c false .nil (chainT c2 rest) .nil

/-- Modelled from the spec (§4.3 insertion): compare the current input
character to the node key under the tree's normalization `f` (Rust `char`
order is code-point order, hence `Nat` comparison of normalized code points);
less → `left`, greater → `right`, equal → advance into `mid`, creating nodes
as needed; the last character marks its node's value present. -/
def insT (f : Char → Nat) : Tst → Char → List Char → Tst
  | .nil, c, rest => chainT c rest
  | .node k v l m r, c, rest =>
    match compare (f c) (f k), rest with
    | .lt, _ => .node k v (insT f l c rest) m r
    | .gt, _ => .node k v l m (insT f r c rest)
    | .eq, [] => .node k true l m r
    | .eq, c2 :: rest2 => .node k v l (insT f m c2 rest2) r

/-- Modelled from the spec (§4.3): `search` performs the mirror descent and
returns whether the terminal node exists and carries a present value. -/
def findT (f : Char → Nat) : Tst → Char → List Char → Bool
  | .nil, _, _ => false
  | .node k v l m r, c, rest =>
    match compare (f c) (f k) with
    | .lt => findT f l c rest
    | .gt => findT f r c rest
    | .eq =>
      match rest with
      | [] => v
      | c2 :: rest2 => findT f m c2 rest2

theorem findT_chain (f : Char → Nat) :
    ∀ (rest : List Char) (c x : Char) (xs : List Char),
      findT f (chainT c rest) x xs
        = decide ((c :: rest).map f = (x :: xs).map f) := by
  intro rest
  induction rest with
  | nil =>
    intro c x xs
    cases hxc : compare (f x) (f c) with
    | lt =>
      have hne : f x ≠ f c := by
        intro h; rw [Nat.compare_eq_eq.mpr h] at hxc; cases hxc
      simp [chainT, findT, hxc]
      intro h; exact absurd h.symm hne
    | gt =>
      have hne : f x ≠ f c := by
        intro h; rw [Nat.compare_eq_eq.mpr h] at hxc; cases hxc
      simp [chainT, findT, hxc]
      intro h; exact absurd h.symm hne
    | eq =>
      have heq : f x = f c := Nat.compare_eq_eq.mp hxc
      have hcc : compare (f c) (f c) = Ordering.eq := Nat.compare_eq_eq.mpr rfl
      cases xs with
      | nil => simp [chainT, findT, hxc, heq, hcc]
      | cons y ys => simp [chainT, findT, hxc]
  | cons c2 rest2 ih =>
    intro c x xs
    cases hxc : compare (f x) (f c) with
    | lt =>
      have hne : f x ≠ f c := by
        intro h; rw [Nat.compare_eq_eq.mpr h] at hxc; cases hxc
      simp [chainT, findT, hxc]
      intro h; exact absurd h.symm hne
    | gt =>
      have hne : f x ≠ f c := by
        intro h; rw [Nat.compare_eq_eq.mpr h] at hxc; cases hxc
      simp [chainT, findT, hxc]
      intro h; exact absurd h.symm hne
    | eq =>
      have heq : f x = f c := Nat.compare_eq_eq.mp hxc
      have hcc : compare (f c) (f c) = Ordering.eq := Nat.compare_eq_eq.mpr rfl
      cases xs with
      | nil => simp [chainT, findT, hxc]
      | cons y ys => simp [chainT, findT, hxc, ih c2 y ys, heq, hcc]



theorem findT_insT (f : Char → Nat) :
    ∀ (t : Tst) (c : Char) (rest : List Char) (x : Char) (xs : List Char),
      findT f (insT f t c rest) x xs
        = (decide ((c :: rest).map f = (x :: xs).map f) || findT f t x xs) := by
  intro t
  induction t with
  | nil =>
    intro c rest x xs
    show findT f (chainT c rest) x xs = _
    rw [findT_chain]
    simp [findT]
  | node k v l m r ihl ihm ihr =>
    intro c rest x xs
    cases hck : compare (f c) (f k) with
    | lt =>
      cases hxk : compare (f x) (f k) with
      | lt => simp [insT, findT, hck, hxk, ihl]
      | gt =>
        have hne : f c ≠ f x := by
          intro h; rw [h, hxk] at hck; cases hck
        simp [insT, findT, hck, hxk, hne]
      | eq =>
        have hne : f c ≠ f x := by
          intro h; rw [h, hxk] at hck; cases hck
        cases xs <;> simp [insT, findT, hck, hxk, hne]
    | gt =>
      cases hxk : compare (f x) (f k) with
      | gt => simp [insT, findT, hck, hxk, ihr]
      | lt =>
        have hne : f c ≠ f x := by
          intro h; rw [h, hxk] at hck; cases hck
        simp [insT, findT, hck, hxk, hne]
      | eq =>
        have hne : f c ≠ f x := by
          intro h; rw [h, hxk] at hck; cases hck
        cases xs <;> simp [insT, findT, hck, hxk, hne]
    | eq =>
      have hck2 : f c = f k := Nat.compare_eq_eq.mp hck
      cases rest with
      | nil =>
        cases hxk : compare (f x) (f k) with
        | lt =>
          have hne : f c ≠ f x := by
            intro h; rw [h, hxk] at hck; cases hck
          simp [insT, findT, hck, hxk, hne]
        | gt =>
          have hne : f c ≠ f x := by
            intro h; rw [h, hxk] at hck; cases hck
          simp [insT, findT, hck, hxk, hne]
        | eq =>
          have hfcx : f c = f x := by
            rw [hck2]
            exact (Nat.compare_eq_eq.mp hxk).symm
          cases xs with
          | nil => simp [insT, findT, hck, hxk, hfcx]
          | cons y ys => simp [insT, findT, hck, hxk]
      | cons c2 rest2 =>
        cases hxk : compare (f x) (f k) with
        | lt =>
          have hne : f c ≠ f x := by
            intro h; rw [h, hxk] at hck; cases hck
          simp [insT, findT, hck, hxk, hne]
        | gt =>
          have hne : f c ≠ f x := by
            intro h; rw [h, hxk] at hck; cases hck
          simp [insT, findT, hck, hxk, hne]
        | eq =>
          have hfcx : f c = f x := by
            rw [hck2]
            exact (Nat.compare_eq_eq.mp hxk).symm
          cases xs with
          | nil => simp [insT, findT, hck, hxk]
          | cons y ys => simp [insT, findT, hck, hxk, ihm, hfcx]



/-- Modelled from the spec (§4.3): the character normalization fixed at
construction — raw code point when case-sensitive, case-folded otherwise. -/
def normChar (case_sensitive : Bool) (c : Char) : Nat :=
  (if case_sensitive then c else c.toLower).toNat

/-- A word normalized under the case policy; two words are "the same word"
for the dictionary exactly when their normalizations agree. -/
def normWord (case_sensitive : Bool) (w : String) : List Nat :=
  w.data.map (normChar case_sensitive)

/-- Modelled from the spec (§3): the dictionary owns the root, the
case-sensitivity policy chosen once at construction, and the count of distinct
inserted words. -/
structure TernaryTreeDictionary where
  tree : Tst
  case_sensitive : Bool
  count : Nat

/-- Modelled from the spec (§4.3): membership query (`Dictionary::search` of
the present mod.rs delegates to `tree.get(word).is_some()`). -/
def TernaryTreeDictionary.search (d : TernaryTreeDictionary) (w : String) : Bool :=
  match w.data with
  | [] => false
  | c :: rest => findT (normChar d.case_sensitive) d.tree c rest

/-- Mirrors `Dictionary::len` for `TernaryTreeDictionary`
(src/dictionary/ternary_tree/mod.rs lines 34-36). -/
def TernaryTreeDictionary.len (d : TernaryTreeDictionary) : Nat := d.count

/-- Modelled from the spec (§4.3): insert one word; a duplicate (under the
case policy) updates the tree but not the count of distinct words. -/
def insertW (d : TernaryTreeDictionary) (w : String) : TernaryTreeDictionary :=
  match w.data with
  | [] => d
  | c :: rest =>
    ⟨insT (normChar d.case_sensitive) d.tree c rest, d.case_sensitive,
     if findT (normChar d.case_sensitive) d.tree c rest then d.count else d.count + 1⟩

/-- Modelled from the spec (§4.3): construction inserts every word of the
backing word list once, in list order. -/
def buildT (case_sensitive : Bool) (ws : List String) : TernaryTreeDictionary :=
  ws.foldl insertW ⟨.nil, case_sensitive, 0⟩

/-- Mirrors `TernaryTreeDictionary::with_wordlist_and_median`
(src/dictionary/ternary_tree/mod.rs lines 18-26): derive the case policy by
testing the word list comparator on `"A"`/`"a"`, then bulk-insert. -/
def with_wordlist (wl : ArrayWordList) : TernaryTreeDictionary :=
  buildT (decide (wl.comparator "A" "a" ≠ .eq)) wl.words

/-- Invariant of the bulk-load: membership in the tree is exactly
normalized-equality with some already-inserted word, and the count is the
number of distinct normalized words inserted so far. -/
def TstInv (cs : Bool) (d : TernaryTreeDictionary) (seen : List String) : Prop :=
  d.case_sensitive = cs
  ∧ (∀ (x : Char) (xs : List Char),
      findT (normChar cs) d.tree x xs = true
        ↔ ∃ v ∈ seen, normWord cs v = (x :: xs).map (normChar cs))
  ∧ d.count = ((seen.map (normWord cs)).toFinset).card

theorem insertW_inv (cs : Bool) (d : TernaryTreeDictionary) (seen : List String)
    (w : String) (hw : w ≠ "") (hinv : TstInv cs d seen) :
    TstInv cs (insertW d w) (seen ++ [w]) := by
  obtain ⟨hcs, hfind, hcount⟩ := hinv
  obtain ⟨c, rest, hdata⟩ : ∃ c rest, w.data = c :: rest := by
    cases hd : w.data with
    | nil => exact absurd (String.ext hd) hw
    | cons a l => exact ⟨a, l, rfl⟩
  have hnw : normWord cs w = (c :: rest).map (normChar cs) := by
    simp [normWord, hdata]
  have hstep : insertW d w
      = ⟨insT (normChar cs) d.tree c rest, d.case_sensitive,
         if findT (normChar cs) d.tree c rest then d.count else d.count + 1⟩ := by
    rw [insertW, hdata, hcs]
  refine ⟨by rw [hstep]; exact hcs, ?_, ?_⟩
  · intro x xs
    rw [hstep]
    show findT (normChar cs) (insT (normChar cs) d.tree c rest) x xs = true ↔ _
    rw [findT_insT]
    simp only [Bool.or_eq_true, decide_eq_true_eq, hfind]
    constructor
    · rintro (h | ⟨v, hv, hveq⟩)
      · exact ⟨w, by simp, by rw [hnw]; exact h⟩
      · exact ⟨v, by simp [hv], hveq⟩
    · rintro ⟨v, hv, hveq⟩
      rcases List.mem_append.mp hv with hv2 | hv2
      · exact Or.inr ⟨v, hv2, hveq⟩
      · have : v = w := by simpa using hv2
        subst this
        exact Or.inl (by rw [← hnw]; exact hveq)
  · rw [hstep]
    show (if findT (normChar cs) d.tree c rest then d.count else d.count + 1) = _
    have hmem_iff : findT (normChar cs) d.tree c rest = true
        ↔ normWord cs w ∈ (seen.map (normWord cs)).toFinset := by
      rw [hfind]
      simp only [List.mem_toFinset, List.mem_map]
      constructor
      · rintro ⟨v, hv, hveq⟩; exact ⟨v, hv, by rw [hveq, hnw]⟩
      · rintro ⟨v, hv, hveq⟩; exact ⟨v, hv, by rw [hveq, hnw]⟩
    have htf : ((seen ++ [w]).map (normWord cs)).toFinset
        = insert (normWord cs w) ((seen.map (normWord cs)).toFinset) := by
      simp [List.toFinset_append, Finset.union_comm, Finset.insert_eq]
    rw [htf]
    cases hpresent : findT (normChar cs) d.tree c rest with
    | true =>
      have hmem := hmem_iff.mp hpresent
      rw [Finset.insert_eq_self.mpr hmem]
      simpa using hcount
    | false =>
      have hmem : normWord cs w ∉ (seen.map (normWord cs)).toFinset := by
        intro hmem
        rw [hmem_iff.mpr hmem] at hpresent
        cases hpresent
      rw [Finset.card_insert_of_not_mem hmem, hcount]
      simp

theorem buildT_fold_inv (cs : Bool) :
    ∀ (ws : List String) (d : TernaryTreeDictionary) (seen : List String),
      (∀ w ∈ ws, w ≠ "") → TstInv cs d seen →
      TstInv cs (ws.foldl insertW d) (seen ++ ws) := by
  intro ws
  induction ws with
  | nil => intro d seen _ hinv; simpa using hinv
  | cons w rest ih =>
    intro d seen hne hinv
    have h1 := insertW_inv cs d seen w (hne w (by simp)) hinv
    have h2 := ih (insertW d w) (seen ++ [w]) (fun v hv => hne v (by simp [hv])) h1
    simpa using h2

/-- C3 (modelled from the spec, `tree.rs` being absent): building a
`TernaryTreeDictionary` from a word list makes `search` true for every word of
the list, and `len` equal to the number of words distinct under the
dictionary's case policy (the policy the present `with_wordlist_and_median`
derives by testing the comparator on `"A"`/`"a"`). -/
theorem ternary_tree_search_and_len (wl : ArrayWordList) (hne : ∀ w ∈ wl.words, w ≠ "") :
    (∀ w ∈ wl.words, (with_wordlist wl).search w = true)
    ∧ (with_wordlist wl).len
      = ((wl.words.map (normWord (decide (wl.comparator "A" "a" ≠ .eq)))).toFinset).card := by
  set cs := decide (wl.comparator "A" "a" ≠ .eq) with hcs
  have hbase : TstInv cs ⟨.nil, cs, 0⟩ [] := by
    refine ⟨rfl, ?_, by simp⟩
    intro x xs
    simp [findT]
  have hinv := buildT_fold_inv cs wl.words ⟨.nil, cs, 0⟩ [] hne hbase
  obtain ⟨hcs2, hfind, hcount⟩ := hinv
  constructor
  · intro w hw
    obtain ⟨c, rest, hdata⟩ : ∃ c rest, w.data = c :: rest := by
      cases hd : w.data with
      | nil => exact absurd (String.ext hd) (hne w hw)
      | cons a l => exact ⟨a, l, rfl⟩
    show (with_wordlist wl).search w = true
    rw [with_wordlist, ← hcs]
    show (buildT cs wl.words).search w = true
    rw [TernaryTreeDictionary.search, hdata]
    show findT (normChar (buildT cs wl.words).case_sensitive) (buildT cs wl.words).tree c rest
        = true
    have hcseq : (buildT cs wl.words).case_sensitive = cs := hcs2
    rw [hcseq]
    show findT (normChar cs) (wl.words.foldl insertW ⟨.nil, cs, 0⟩).tree c rest = true
    rw [show (wl.words.foldl insertW ⟨.nil, cs, 0⟩) = buildT cs wl.words from rfl]
    refine (hfind c rest).mpr ⟨w, by simpa using hw, by simp [normWord, hdata]⟩
  · show (buildT cs wl.words).count = _
    rw [show (buildT cs wl.words).count
        = ((([] : List String) ++ wl.words).map (normWord cs)).toFinset.card from hcount]
    simp


theorem ternary_tree_search_and_len_witness :
    (with_wordlist ⟨["Ab", "aB", "cd"], false, fun _ _ => Ordering.eq⟩).search "aB" = true
    ∧ (with_wordlist ⟨["Ab", "aB", "cd"], false, fun _ _ => Ordering.eq⟩).len = 2 := by
  have h := ternary_tree_search_and_len
    ⟨["Ab", "aB", "cd"], false, fun _ _ => Ordering.eq⟩ (by decide)
  refine ⟨h.1 "aB" (by simp), ?_⟩
  rw [h.2]
  decide

end Passay
